import Mathlib

/-!
Formal model of the trio_binning read classification core.

The definitions below are shallow embeddings of the python sources:
seq.py (Read, the str and print formatting, readfq, open_outfiles),
classify_by_kmers.py (calculate_scaling_factors, open_outfiles and the
classification loop of main) and classify_by_alignment.py
(classify_single).  Strings are modelled as lists of characters, file
contents as lists of raw lines exactly as python file iteration yields
them (every line keeps its terminating newline character, except
possibly the final line of the file), python floats as exact rational
numbers, and python exceptions (ZeroDivisionError, ValueError from max
of an empty sequence) as Option results.
-/

namespace TrioBinning

/-- Read (seq.py, class Read): name, sequence and optional quality. -/
structure Read where
  name : List Char
  seq : List Char
  qual : Option (List Char) := none
deriving DecidableEq

/-- The three output bins of the classifiers: haplotype A, haplotype B
and unclassified (written as U in classify_by_kmers.main). -/
inductive Bin where
  | A
  | B
  | U
deriving DecidableEq

/-- Read.__str__ (seq.py lines 27-31).  Python tests the quality with
the truthiness check `if self.qual:`, so a missing quality and a
present-but-empty quality both take the fasta branch. -/
def strRead (r : Read) : List Char :=
  match r.qual with
  | some q =>
      if q.isEmpty then
        '>' :: (r.name ++ ('\n' :: r.seq))
      else
        '@' :: (r.name ++ ('\n' :: (r.seq ++ ('\n' :: ('+' :: ('\n' :: q))))))
  | none => '>' :: (r.name ++ ('\n' :: r.seq))

/-- Read.print (seq.py lines 33-42): python print appends one newline
to the str form. -/
def printRead (r : Read) : List Char :=
  strRead r ++ ['\n']

/-- calculate_scaling_factors (classify_by_kmers.py lines 103-123).
The cardinalities of the two k-mer hash sets come in as natural
numbers; the two divisions `1.0 * max_num_kmers / num_kmers_x` are
modelled over the rationals, and python raising ZeroDivisionError on a
zero cardinality is modelled as the none result. -/
def calculate_scaling_factors (num_kmers_a num_kmers_b : ℕ) :
    Option (ℚ × ℚ) :=
  let max_num_kmers : ℕ := max num_kmers_a num_kmers_b
  if num_kmers_a = 0 then none
  else if num_kmers_b = 0 then none
  else
    some (1 * (max_num_kmers : ℚ) / (num_kmers_a : ℚ),
          1 * (max_num_kmers : ℚ) / (num_kmers_b : ℚ))

/-- The per-read scoring and bin decision of classify_by_kmers.main
(lines 148-166): scale both raw counts, then compare.  Returns the bin
together with the two scaled scores. -/
def classifyRead (hap_a_count hap_b_count : ℕ)
    (scaling_factor_a scaling_factor_b : ℚ) : Bin × ℚ × ℚ :=
  let hap_a_score : ℚ := (hap_a_count : ℚ) * scaling_factor_a
  let hap_b_score : ℚ := (hap_b_count : ℚ) * scaling_factor_b
  if hap_b_score < hap_a_score then (Bin.A, hap_a_score, hap_b_score)
  else if hap_a_score < hap_b_score then (Bin.B, hap_a_score, hap_b_score)
  else (Bin.U, hap_a_score, hap_b_score)

/-- The k-mer pipeline of classify_by_kmers.main (lines 126-166):
scaling factors are computed once, before the read loop, and the loop
classifies every read.  The external C k-mer counter
kmers.count_kmers_in_read is a parameter.  A zero cardinality makes the
whole run fail (none) with no read processed. -/
def runClassification (num_kmers_a num_kmers_b : ℕ) (reads : List Read)
    (count_kmers : List Char → ℕ × ℕ) :
    Option (List (Read × Bin × ℚ × ℚ)) :=
  match calculate_scaling_factors num_kmers_a num_kmers_b with
  | none => none
  | some (fa, fb) =>
      some (reads.map (fun r =>
        let c := count_kmers r.seq
        let res := classifyRead c.1 c.2 fa fb
        (r, res.1, res.2.1, res.2.2)))

/-- open_outfiles (seq.py lines 98-136 and the identical copy in
classify_by_kmers.py lines 62-100), reduced to the file names the three
streams are opened on.  The model reproduces the source exactly: in the
non-gzip branch the haplotype B stream is opened on
haplotype_a_outfile_name (seq.py line 129, classify_by_kmers.py line
93). -/
def open_outfiles (haplotype_a_pre haplotype_b_pre unclassified_pre
    outfile_extension : List Char) (gzip_output : Bool) :
    List Char × List Char × List Char :=
  let haplotype_a_outfile_name := haplotype_a_pre ++ outfile_extension
  let haplotype_b_outfile_name := haplotype_b_pre ++ outfile_extension
  let unclassified_outfile_name := unclassified_pre ++ outfile_extension
  if !gzip_output then
    (haplotype_a_outfile_name, haplotype_a_outfile_name,
     unclassified_outfile_name)
  else
    (haplotype_a_outfile_name ++ ['.', 'g', 'z'],
     haplotype_b_outfile_name ++ ['.', 'g', 'z'],
     unclassified_outfile_name ++ ['.', 'g', 'z'])

/-- One hit returned by the external aligner (mappy), reduced to the
only field classify_single reads: the match length mlen. -/
structure Alignment where
  mlen : ℕ
deriving DecidableEq

/-- Python max(iterable, key=lambda a: a.mlen): none on an empty
sequence (python raises ValueError there); the first maximal element
otherwise (a later element replaces the current one only when strictly
larger). -/
def pyMax (l : List Alignment) : Option Alignment :=
  match l with
  | [] => none
  | x :: xs => some (xs.foldl (fun acc y => if acc.mlen < y.mlen then y else acc) x)

/-- The per-read body of classify_single (classify_by_alignment.py
lines 98-106).  The two aligners are parameters returning the list of
hits for a sequence; the two max calls are evaluated in source order,
and a failing max aborts (none). -/
def classifySingleRead (align_hap_a align_hap_b : List Char → List Alignment)
    (r : Read) : Option Bin :=
  match pyMax (align_hap_a r.seq) with
  | none => none
  | some alignment_a =>
      match pyMax (align_hap_b r.seq) with
      | none => none
      | some alignment_b =>
          some (if alignment_b.mlen < alignment_a.mlen then Bin.A
                else if alignment_a.mlen < alignment_b.mlen then Bin.B
                else Bin.U)

/-- classify_single (classify_by_alignment.py lines 90-106): the loop
over reads, recording the bin assigned to each read; it aborts (none)
as soon as one read has no alignment against one of the assemblies. -/
def classify_single (align_hap_a align_hap_b : List Char → List Alignment)
    (reads : List Read) : Option (List (Read × Bin)) :=
  match reads with
  | [] => some []
  | r :: rs =>
      match classifySingleRead align_hap_a align_hap_b r with
      | none => none
      | some b =>
          match classify_single align_hap_a align_hap_b rs with
          | none => none
          | some out => some ((r, b) :: out)

/-- A raw line begins a record when its first character is the fasta
marker or the fastq marker (readfq line 56: `line[0] in ">@"`).  A
python line is never empty; on the empty list the model scans on. -/
def isHeaderLine (l : List Char) : Bool :=
  l.head? = some '>' || l.head? = some '@'

/-- A raw line stops sequence accumulation when its first character is
one of the three markers (readfq line 63: `line[0] in "@+>"`). -/
def isSeqBreak (l : List Char) : Bool :=
  l.head? = some '@' || l.head? = some '+' || l.head? = some '>'

/-- The record name from a stripped header line (readfq line 61:
`last[1:].partition(" ")[0]`): drop the marker, keep the part before
the first space. -/
def parseName (hdr : List Char) : List Char :=
  (hdr.drop 1).takeWhile (fun c => c ≠ ' ')

/-- The sequence-reading loop of readfq (lines 62-66): accumulate
stripped lines until a marker line, returning the fragments, the
stripped marker line that ended the loop ([] when the input ended or
the marker line stripped to nothing, matching the falsy buffer in
python) and the unread rest. -/
def readSeq : List (List Char) → List (List Char) × List Char × List (List Char)
  | [] => ([], [], [])
  | l :: ls =>
      if isSeqBreak l then ([], l.dropLast, ls)
      else (l.dropLast :: (readSeq ls).1, (readSeq ls).2.1, (readSeq ls).2.2)

/-- The quality-reading loop of readfq (lines 73-80): accumulate
stripped lines and stop as soon as the accumulated length reaches the
sequence length (`leng >= len(seq)`), returning the accumulated
quality (not truncated) and the unread rest; none when the input ends
first. -/
def readQual (need : ℕ) (acc : List Char) :
    List (List Char) → Option (List Char × List (List Char))
  | [] => none
  | l :: ls =>
      if need ≤ (acc ++ l.dropLast).length then some (acc ++ l.dropLast, ls)
      else readQual need (acc ++ l.dropLast) ls

/-- The main loop of readfq (lines 52-83).  The first argument models
the buffered unprocessed line `last` ([] both for python None and for
an empty buffered string, which python treats identically as falsy);
the natural number is fuel for the while loop.  Every loop iteration
consumes at least one input line, so the fuel used by readfq, one more
than the number of lines, never runs out. -/
def readfqAux : ℕ → List Char → List (List Char) → List Read
  | 0, _, _ => []
  | n + 1, buf, lines =>
      match buf with
      | [] =>
          match lines with
          | [] => []
          | l :: ls =>
              if isHeaderLine l then
                if (l.dropLast).isEmpty then [] else readfqAux n l.dropLast ls
              else readfqAux n [] ls
      | c :: cs =>
          match readSeq lines with
          | (seqs, last, rest) =>
              if last.head? = some '+' then
                match readQual ((seqs.join).length) [] rest with
                | some (q, rest2) =>
                    Read.mk (parseName (c :: cs)) (seqs.join) (some q) ::
                      readfqAux n [] rest2
                | none => [Read.mk (parseName (c :: cs)) (seqs.join) none]
              else
                Read.mk (parseName (c :: cs)) (seqs.join) none ::
                  (if last.isEmpty then [] else readfqAux n last rest)

/-- readfq (seq.py lines 45-83) on a list of raw lines. -/
def readfq (lines : List (List Char)) : List Read :=
  readfqAux (lines.length + 1) [] lines

/-- Helper splitting a character stream into raw lines the way python
file iteration does: every line keeps its terminating newline, a final
chunk without a newline is yielded as is, and the empty stream yields
no lines.  The first argument is the reversed accumulator of the
current line. -/
def splitLinesAux (acc : List Char) : List Char → List (List Char)
  | [] => if acc.isEmpty then [] else [acc.reverse]
  | c :: cs =>
      if c = '\n' then (acc.reverse ++ ['\n']) :: splitLinesAux [] cs
      else splitLinesAux (c :: acc) cs

/-- Split a character stream into python-style raw lines. -/
def splitLines (s : List Char) : List (List Char) :=
  splitLinesAux [] s

/-- Unfold lemma: the scan of readfq on a line (readfq lines 54-60). -/
theorem readfqAux_succ_nil_cons (n : ℕ) (l : List Char) (ls : List (List Char)) :
    readfqAux (n + 1) [] (l :: ls) =
      if isHeaderLine l then
        if (l.dropLast).isEmpty then [] else readfqAux n l.dropLast ls
      else readfqAux n [] ls := rfl

/-- Unfold lemma: one record step of readfq with a buffered header. -/
theorem readfqAux_succ_cons (n : ℕ) (c : Char) (cs : List Char)
    (lines : List (List Char)) :
    readfqAux (n + 1) (c :: cs) lines =
      match readSeq lines with
      | (seqs, last, rest) =>
          if last.head? = some '+' then
            match readQual ((seqs.join).length) [] rest with
            | some (q, rest2) =>
                Read.mk (parseName (c :: cs)) (seqs.join) (some q) ::
                  readfqAux n [] rest2
            | none => [Read.mk (parseName (c :: cs)) (seqs.join) none]
          else
            Read.mk (parseName (c :: cs)) (seqs.join) none ::
              (if last.isEmpty then [] else readfqAux n last rest) := rfl

/-- Branch lemma: a record step that reaches the fastq branch and runs
out of input before enough quality accumulates emits the fasta-style
fallback record and ends the parse (readfq lines 81-83). -/
theorem readfqAux_fastq_truncated (n : ℕ) (c : Char) (cs : List Char)
    (lines seqs : List (List Char)) (last : List Char)
    (rest : List (List Char))
    (hs : readSeq lines = (seqs, last, rest))
    (hp : last.head? = some '+')
    (hq : readQual ((seqs.join).length) [] rest = none) :
    readfqAux (n + 1) (c :: cs) lines =
      [Read.mk (parseName (c :: cs)) (seqs.join) none] := by
  rw [readfqAux_succ_cons, hs]
  dsimp only
  rw [if_pos hp, hq]

/-- Branch lemma: a record step that reaches the fastq branch and
accumulates enough quality emits the fastq record and loops back to
header scanning (readfq lines 76-80). -/
theorem readfqAux_fastq_emit (n : ℕ) (c : Char) (cs : List Char)
    (lines seqs : List (List Char)) (last : List Char)
    (rest : List (List Char)) (q : List Char) (rest2 : List (List Char))
    (hs : readSeq lines = (seqs, last, rest))
    (hp : last.head? = some '+')
    (hq : readQual ((seqs.join).length) [] rest = some (q, rest2)) :
    readfqAux (n + 1) (c :: cs) lines =
      Read.mk (parseName (c :: cs)) (seqs.join) (some q) ::
        readfqAux n [] rest2 := by
  rw [readfqAux_succ_cons, hs]
  dsimp only
  rw [if_pos hp, hq]

/-- Branch lemma: a record step whose sequence loop ends on anything
except a fastq separator emits a fasta record, continuing with the
buffered line when there is one (readfq lines 67-70). -/
theorem readfqAux_fasta (n : ℕ) (c : Char) (cs : List Char)
    (lines seqs : List (List Char)) (last : List Char)
    (rest : List (List Char))
    (hs : readSeq lines = (seqs, last, rest))
    (hp : ¬ last.head? = some '+') :
    readfqAux (n + 1) (c :: cs) lines =
      Read.mk (parseName (c :: cs)) (seqs.join) none ::
        (if last.isEmpty then [] else readfqAux n last rest) := by
  rw [readfqAux_succ_cons, hs]
  dsimp only
  rw [if_neg hp]

/-- C1: in the k-mer pipeline the assigned bin is A exactly when the
scaled score of haplotype A is strictly larger, B exactly when the
scaled score of haplotype B is strictly larger, and U (unclassified)
exactly when the two scaled scores are equal (in particular when both
raw counts are zero). -/
theorem classifyRead_bin_iff (hap_a_count hap_b_count : ℕ)
    (scaling_factor_a scaling_factor_b : ℚ) :
    ((classifyRead hap_a_count hap_b_count scaling_factor_a scaling_factor_b).1 = Bin.A ↔
      (hap_a_count : ℚ) * scaling_factor_a > (hap_b_count : ℚ) * scaling_factor_b) ∧
    ((classifyRead hap_a_count hap_b_count scaling_factor_a scaling_factor_b).1 = Bin.B ↔
      (hap_b_count : ℚ) * scaling_factor_b > (hap_a_count : ℚ) * scaling_factor_a) ∧
    ((classifyRead hap_a_count hap_b_count scaling_factor_a scaling_factor_b).1 = Bin.U ↔
      (hap_a_count : ℚ) * scaling_factor_a = (hap_b_count : ℚ) * scaling_factor_b) := by
  rcases lt_trichotomy ((hap_a_count : ℚ) * scaling_factor_a)
      ((hap_b_count : ℚ) * scaling_factor_b) with h | h | h
  · simp [classifyRead, h, lt_asymm h, h.ne]
  · simp [classifyRead, h, lt_irrefl]
  · simp [classifyRead, h, lt_asymm h, h.ne']

/-- C3: for positive cardinalities the scaling factors exist and
satisfy factor_a * size_a = factor_b * size_b, both products equal
max(size_a, size_b), and the smaller factor is exactly 1 (the model
computes over exact rationals). -/
theorem calculate_scaling_factors_invariant (size_a size_b : ℕ)
    (ha : 0 < size_a) (hb : 0 < size_b) :
    ∃ fa fb : ℚ, calculate_scaling_factors size_a size_b = some (fa, fb) ∧
      fa * (size_a : ℚ) = fb * (size_b : ℚ) ∧
      fa * (size_a : ℚ) = ((max size_a size_b : ℕ) : ℚ) ∧
      min fa fb = 1 := by
  have ha' : ((size_a : ℚ)) ≠ 0 := by exact_mod_cast ha.ne'
  have hb' : ((size_b : ℚ)) ≠ 0 := by exact_mod_cast hb.ne'
  refine ⟨1 * ((max size_a size_b : ℕ) : ℚ) / (size_a : ℚ),
          1 * ((max size_a size_b : ℕ) : ℚ) / (size_b : ℚ), ?_, ?_, ?_, ?_⟩
  · simp [calculate_scaling_factors, ha.ne', hb.ne']
  · simp only [one_mul]
    rw [div_mul_cancel₀ _ ha', div_mul_cancel₀ _ hb']
  · simp only [one_mul]
    rw [div_mul_cancel₀ _ ha']
  · simp only [one_mul]
    rcases le_total size_a size_b with h | h
    · have hm : max size_a size_b = size_b := max_eq_right h
      rw [hm, div_self hb']
      refine min_eq_right ?_
      rw [le_div_iff (by positivity), one_mul]
      exact_mod_cast h
    · have hm : max size_a size_b = size_a := max_eq_left h
      rw [hm, div_self ha']
      refine min_eq_left ?_
      rw [le_div_iff (by positivity), one_mul]
      exact_mod_cast h

/-- C3 witness: cardinalities 4 and 6 give factors 3/2 and 1. -/
theorem calculate_scaling_factors_invariant_witness :
    0 < 4 ∧ 0 < 6 ∧
    (∃ fa fb : ℚ, calculate_scaling_factors 4 6 = some (fa, fb) ∧
      fa * ((4 : ℕ) : ℚ) = fb * ((6 : ℕ) : ℚ) ∧
      fa * ((4 : ℕ) : ℚ) = ((max (4 : ℕ) 6 : ℕ) : ℚ) ∧
      min fa fb = 1) :=
  ⟨by decide, by decide,
   calculate_scaling_factors_invariant 4 6 (by decide) (by decide)⟩

/-- C5 (code bug): evaluating the embedded open_outfiles with
gzip_output = false on the prefixes hapA, hapB, unclassified and the
extension .fa shows that the haplotype B stream is opened on the
haplotype A file name hapA.fa, not on hapB.fa as the claim states; the
gzip branch uses the correct name. -/
theorem open_outfiles_gzip_false_eval :
    open_outfiles ['h', 'a', 'p', 'A'] ['h', 'a', 'p', 'B']
        ['u', 'n', 'c', 'l'] ['.', 'f', 'a'] false =
      (['h', 'a', 'p', 'A', '.', 'f', 'a'],
       ['h', 'a', 'p', 'A', '.', 'f', 'a'],
       ['u', 'n', 'c', 'l', '.', 'f', 'a']) ∧
    (open_outfiles ['h', 'a', 'p', 'A'] ['h', 'a', 'p', 'B']
        ['u', 'n', 'c', 'l'] ['.', 'f', 'a'] false).2.1 ≠
      ['h', 'a', 'p', 'B', '.', 'f', 'a'] ∧
    (open_outfiles ['h', 'a', 'p', 'A'] ['h', 'a', 'p', 'B']
        ['u', 'n', 'c', 'l'] ['.', 'f', 'a'] true).2.1 =
      ['h', 'a', 'p', 'B', '.', 'f', 'a', '.', 'g', 'z'] := by
  decide

/-- Helper: pyMax returns none exactly on the empty list. -/
theorem pyMax_eq_none_iff (l : List Alignment) : pyMax l = none ↔ l = [] := by
  cases l <;> simp [pyMax]

/-- Helper: the per-read alignment classifier succeeds exactly when
both aligners return at least one hit. -/
theorem classifySingleRead_isSome_iff
    (align_hap_a align_hap_b : List Char → List Alignment) (r : Read) :
    (classifySingleRead align_hap_a align_hap_b r).isSome = true ↔
      align_hap_a r.seq ≠ [] ∧ align_hap_b r.seq ≠ [] := by
  cases ha : align_hap_a r.seq <;> cases hb : align_hap_b r.seq <;>
    simp [classifySingleRead, pyMax, ha, hb]

/-- Helper: success of classify_single on a cons is the conjunction of
success on the head and on the tail. -/
theorem classify_single_cons_isSome
    (align_hap_a align_hap_b : List Char → List Alignment)
    (r : Read) (rs : List Read) :
    (classify_single align_hap_a align_hap_b (r :: rs)).isSome =
      ((classifySingleRead align_hap_a align_hap_b r).isSome &&
       (classify_single align_hap_a align_hap_b rs).isSome) := by
  cases h1 : classifySingleRead align_hap_a align_hap_b r <;>
    cases h2 : classify_single align_hap_a align_hap_b rs <;>
      simp [classify_single, h1, h2]

/-- C9: classify_single is total exactly under the precondition that
every read has at least one alignment against each of the two
assemblies; a read with an empty hit list on either side makes the max
call fail and the classifier abort. -/
theorem classify_single_isSome_iff
    (align_hap_a align_hap_b : List Char → List Alignment)
    (reads : List Read) :
    (classify_single align_hap_a align_hap_b reads).isSome = true ↔
      ∀ r ∈ reads, align_hap_a r.seq ≠ [] ∧ align_hap_b r.seq ≠ [] := by
  induction reads with
  | nil => simp [classify_single]
  | cons r rs ih =>
      rw [classify_single_cons_isSome, Bool.and_eq_true, ih,
        classifySingleRead_isSome_iff, List.forall_mem_cons]

/-- Helper: the sequence loop never leaves more lines than it was
given. -/
theorem readSeq_rest_le (lines : List (List Char)) :
    (readSeq lines).2.2.length ≤ lines.length := by
  induction lines with
  | nil => simp [readSeq]
  | cons l ls ih =>
      by_cases h : isSeqBreak l = true
      · simp [readSeq, h]
      · simp only [readSeq, h, Bool.false_eq_true, if_false, List.length_cons]
        exact le_trans ih (Nat.le_succ _)

/-- Helper: when the sequence loop stops on a marker line it has
consumed at least that line. -/
theorem readSeq_rest_lt (lines : List (List Char)) :
    ∀ seqs (last : List Char) rest, readSeq lines = (seqs, last, rest) →
      last ≠ [] → rest.length < lines.length := by
  induction lines with
  | nil =>
      intro seqs last rest hsv hne
      simp [readSeq] at hsv
      exact absurd hsv.2.1 hne
  | cons l ls ih =>
      intro seqs last rest hsv hne
      by_cases h : isSeqBreak l = true
      · simp only [readSeq, h, if_true, Prod.mk.injEq] at hsv
        rw [← hsv.2.2]
        simp
      · simp only [readSeq, h, Bool.false_eq_true, if_false,
          Prod.mk.injEq] at hsv
        have := ih (readSeq ls).1 (readSeq ls).2.1 (readSeq ls).2.2 rfl
          (hsv.2.1 ▸ hne)
        rw [← hsv.2.2]
        exact lt_trans this (Nat.lt_succ_self _)

/-- Helper: a successful quality loop consumes at least one line. -/
theorem readQual_rest_lt (need : ℕ) :
    ∀ (acc : List Char) (lines : List (List Char)) q rest,
      readQual need acc lines = some (q, rest) →
      rest.length < lines.length := by
  intro acc lines
  induction lines generalizing acc with
  | nil =>
      intro q rest h
      simp [readQual] at h
  | cons l ls ih =>
      intro q rest h
      rw [readQual] at h
      by_cases hc : need ≤ (acc ++ l.dropLast).length
      · rw [if_pos hc] at h
        obtain ⟨h1, h2⟩ := Prod.mk.injEq .. ▸ Option.some.injEq .. ▸ h
        rw [← h2]
        simp
      · rw [if_neg hc] at h
        exact lt_trans (ih _ q rest h) (Nat.lt_succ_self _)

/-- Helper: the fuel of the main loop is irrelevant as long as it
exceeds the number of input lines, because every iteration consumes at
least one line: the fuel is not an observable part of the model. -/
theorem readfqAux_fuel_congr (n : ℕ) :
    ∀ (m : ℕ) (buf : List Char) (lines : List (List Char)),
      lines.length < n → lines.length < m →
      readfqAux n buf lines = readfqAux m buf lines := by
  induction n with
  | zero =>
      intro m buf lines hn _
      exact absurd hn (Nat.not_lt_zero _)
  | succ n ih =>
      intro m buf lines hn hm
      cases m with
      | zero => exact absurd hm (Nat.not_lt_zero _)
      | succ m =>
          cases buf with
          | nil =>
              cases lines with
              | nil => rfl
              | cons l ls =>
                  have hn' : ls.length < n := by
                    simpa using Nat.lt_of_succ_lt_succ hn
                  have hm' : ls.length < m := by
                    simpa using Nat.lt_of_succ_lt_succ hm
                  rw [readfqAux_succ_nil_cons, readfqAux_succ_nil_cons]
                  by_cases hh : isHeaderLine l = true
                  · rw [if_pos hh, if_pos hh]
                    by_cases he : (l.dropLast).isEmpty = true
                    · rw [if_pos he, if_pos he]
                    · rw [if_neg he, if_neg he, ih m _ _ hn' hm']
                  · rw [if_neg hh, if_neg hh, ih m _ _ hn' hm']
          | cons c cs =>
              rcases hsv : readSeq lines with ⟨seqs, last, rest⟩
              have hrle : rest.length ≤ lines.length := by
                have := readSeq_rest_le lines
                rw [hsv] at this
                exact this
              by_cases hp : last.head? = some '+'
              · cases hqv : readQual ((seqs.join).length) [] rest with
                | none =>
                    rw [readfqAux_fastq_truncated n c cs lines seqs last rest
                        hsv hp hqv,
                      readfqAux_fastq_truncated m c cs lines seqs last rest
                        hsv hp hqv]
                | some pr =>
                    rcases pr with ⟨qq, rest2⟩
                    have hlt : rest2.length < lines.length :=
                      lt_of_lt_of_le (readQual_rest_lt _ _ rest qq rest2 hqv)
                        hrle
                    rw [readfqAux_fastq_emit n c cs lines seqs last rest qq
                        rest2 hsv hp hqv,
                      readfqAux_fastq_emit m c cs lines seqs last rest qq
                        rest2 hsv hp hqv,
                      ih m [] rest2 (lt_of_lt_of_le hlt (Nat.lt_succ_iff.mp hn))
                        (lt_of_lt_of_le hlt (Nat.lt_succ_iff.mp hm))]
              · rw [readfqAux_fasta n c cs lines seqs last rest hsv hp,
                  readfqAux_fasta m c cs lines seqs last rest hsv hp]
                by_cases he : last.isEmpty = true
                · rw [if_pos he, if_pos he]
                · rw [if_neg he, if_neg he]
                  have hne : last ≠ [] := by
                    intro hx
                    rw [hx] at he
                    exact he rfl
                  have hlt : rest.length < lines.length :=
                    readSeq_rest_lt lines seqs last rest hsv hne
                  rw [ih m last rest
                    (lt_of_lt_of_le hlt (Nat.lt_succ_iff.mp hn))
                    (lt_of_lt_of_le hlt (Nat.lt_succ_iff.mp hm))]

/-- Helper: any fuel above the line count computes readfq. -/
theorem readfq_fuel_sufficient (lines : List (List Char)) (n : ℕ)
    (h : lines.length < n) : readfqAux n [] lines = readfq lines :=
  readfqAux_fuel_congr n (lines.length + 1) [] lines h (Nat.lt_succ_self _)

/-- Helper: readSeq consumes an initial block of non-marker lines as
stripped fragments and continues on the rest. -/
theorem readSeq_append (sls rest : List (List Char))
    (h : ∀ l ∈ sls, isSeqBreak l = false) :
    readSeq (sls ++ rest) =
      (sls.map (fun l => l.dropLast) ++ (readSeq rest).1,
       (readSeq rest).2.1, (readSeq rest).2.2) := by
  induction sls with
  | nil => simp
  | cons l ls ih =>
      have hl : isSeqBreak l = false := h l (List.mem_cons_self l ls)
      have ih2 := ih (fun x hx => h x (List.mem_cons_of_mem l hx))
      simp [readSeq, hl, ih2]

/-- Helper: readSeq stops immediately on a marker line. -/
theorem readSeq_break (l : List Char) (ls : List (List Char))
    (h : isSeqBreak l = true) :
    readSeq (l :: ls) = ([], l.dropLast, ls) := by
  simp [readSeq, h]

/-- Helper: a successfully returned quality has at least the required
length (the loop only stops once `leng >= len(seq)`). -/
theorem readQual_some_le (need : ℕ) (acc : List Char)
    (ls : List (List Char)) (q : List Char) (rest : List (List Char))
    (h : readQual need acc ls = some (q, rest)) : need ≤ q.length := by
  induction ls generalizing acc with
  | nil => simp [readQual] at h
  | cons l ls2 ih =>
      rw [readQual] at h
      by_cases hc : need ≤ (acc ++ l.dropLast).length
      · rw [if_pos hc] at h
        obtain ⟨h1, h2⟩ := Prod.mk.injEq .. ▸ Option.some.injEq .. ▸ h
        exact h1 ▸ hc
      · rw [if_neg hc] at h
        exact ih _ h

/-- Helper: when the total stripped length of the remaining lines is
below the required length, the quality loop runs out of input. -/
theorem readQual_none_of_lt (need : ℕ) (acc : List Char)
    (ls : List (List Char))
    (h : acc.length + (ls.map (fun l => l.dropLast.length)).sum < need) :
    readQual need acc ls = none := by
  induction ls generalizing acc with
  | nil => rfl
  | cons l ls2 ih =>
      have h1 : (acc ++ l.dropLast).length +
          (ls2.map (fun l => l.dropLast.length)).sum < need := by
        simp only [List.length_append, List.map_cons, List.sum_cons] at h ⊢
        omega
      have h2 : ¬ need ≤ (acc ++ l.dropLast).length := by omega
      rw [readQual, if_neg h2]
      exact ih _ h1

/-- Helper: dropping the final character either preserves the first
character or empties the line. -/
theorem head?_dropLast (l : List Char) :
    l.dropLast.head? = l.head? ∨ l.dropLast.head? = none := by
  match l with
  | [] => exact Or.inr rfl
  | [a] => exact Or.inr rfl
  | a :: b :: t => exact Or.inl rfl

/-- Helper: a header line is also a sequence-breaking line. -/
theorem isSeqBreak_of_isHeaderLine (l : List Char)
    (h : isHeaderLine l = true) : isSeqBreak l = true := by
  simp only [isHeaderLine, Bool.or_eq_true, decide_eq_true_eq] at h
  simp only [isSeqBreak, Bool.or_eq_true, decide_eq_true_eq]
  rcases h with h | h
  · exact Or.inr h
  · exact Or.inl (Or.inl h)

/-- Helper: a header line stripped of its final character never starts
with the fastq separator. -/
theorem dropLast_head_ne_plus_of_isHeaderLine (l : List Char)
    (h : isHeaderLine l = true) : ¬ l.dropLast.head? = some '+' := by
  intro hcon
  simp only [isHeaderLine, Bool.or_eq_true, decide_eq_true_eq] at h
  rcases head?_dropLast l with he | he
  · rw [he] at hcon
    rcases h with h | h <;> rw [h] at hcon <;> simp at hcon
  · rw [he] at hcon
    exact Option.noConfusion hcon

/-- C7: a fasta record formed by a single header line and a block of
sequence lines, ended by a new header line or by the end of the input,
parses to a record whose sequence is the concatenation of the stripped
sequence lines and whose quality is absent. -/
theorem readfq_fasta_record (hl : List Char) (sls rest : List (List Char))
    (h1 : isHeaderLine hl = true)
    (h2 : ¬ (hl.dropLast).isEmpty = true)
    (h3 : ∀ l ∈ sls, isSeqBreak l = false)
    (h4 : rest = [] ∨ ∃ l2 ls2, rest = l2 :: ls2 ∧ isHeaderLine l2 = true) :
    (readfq (hl :: (sls ++ rest))).head? =
      some (Read.mk (parseName hl.dropLast)
        ((sls.map (fun l => l.dropLast)).join) none) := by
  obtain ⟨c, cs, hc⟩ : ∃ c cs, hl.dropLast = c :: cs := by
    cases hx : hl.dropLast with
    | nil => rw [hx] at h2; simp at h2
    | cons c cs => exact ⟨c, cs, rfl⟩
  rw [readfq]
  simp only [List.length_cons]
  rw [readfqAux_succ_nil_cons, if_pos h1, if_neg h2, hc]
  have hseq := readSeq_append sls rest h3
  rcases h4 with hrest | ⟨l2, ls2, hrest, hl2⟩
  · subst hrest
    rw [readfqAux_fasta _ c cs _ _ _ _ (by simpa [readSeq] using hseq)
      (by simp)]
    simp
  · subst hrest
    rw [readSeq_break l2 ls2 (isSeqBreak_of_isHeaderLine l2 hl2)] at hseq
    rw [readfqAux_fasta _ c cs _ _ _ _ (by simpa using hseq)
      (dropLast_head_ne_plus_of_isHeaderLine l2 hl2)]
    simp

/-- C7 witness: a concrete two-line fasta record at the end of the
input. -/
theorem readfq_fasta_record_witness :
    (readfq [['>', 'r', ' ', 'x', '\n'], ['A', 'C', '\n'],
        ['G', 'T', '\n']]).head? =
      some (Read.mk ['r'] ['A', 'C', 'G', 'T'] none) := by
  have h := readfq_fasta_record ['>', 'r', ' ', 'x', '\n']
    [['A', 'C', '\n'], ['G', 'T', '\n']] [] (by decide) (by decide)
    (by decide) (Or.inl rfl)
  simpa using h

/-- C6: an input whose record reaches the quality-accumulation loop
and ends before the accumulated quality can reach the sequence length
makes readfq emit a final fasta-style record with no quality (the
partial quality is discarded), and nothing after it. -/
theorem readfq_truncated_quality_fallback (hl : List Char)
    (body seqs : List (List Char)) (last : List Char)
    (rest : List (List Char))
    (h1 : isHeaderLine hl = true)
    (h2 : ¬ (hl.dropLast).isEmpty = true)
    (hs : readSeq body = (seqs, last, rest))
    (hp : last.head? = some '+')
    (hlt : (rest.map (fun l => l.dropLast.length)).sum < (seqs.join).length) :
    readfq (hl :: body) =
      [Read.mk (parseName hl.dropLast) (seqs.join) none] := by
  obtain ⟨c, cs, hc⟩ : ∃ c cs, hl.dropLast = c :: cs := by
    cases hx : hl.dropLast with
    | nil => rw [hx] at h2; simp at h2
    | cons c cs => exact ⟨c, cs, rfl⟩
  rw [readfq]
  simp only [List.length_cons]
  rw [readfqAux_succ_nil_cons, if_pos h1, if_neg h2, hc]
  exact readfqAux_fastq_truncated _ c cs body seqs last rest hs hp
    (readQual_none_of_lt _ _ _ (by simpa using hlt))

/-- C6 witness: a concrete truncated fastq record (two quality
characters needed, only one present before the end of the input). -/
theorem readfq_truncated_quality_fallback_witness :
    readfq [['@', 'r', '\n'], ['A', 'C', '\n'], ['+', '\n'], ['!', '\n']] =
      [Read.mk ['r'] ['A', 'C'] none] := by
  have h := readfq_truncated_quality_fallback ['@', 'r', '\n']
    [['A', 'C', '\n'], ['+', '\n'], ['!', '\n']] [['A', 'C']] ['+']
    [['!', '\n']] (by decide) (by decide) (by decide) (by decide) (by decide)
  simpa using h

/-- Helper: the main loop with an empty buffer stops at the end of the
input. -/
theorem readfqAux_succ_nil_nil (n : ℕ) : readfqAux (n + 1) [] [] = [] := rfl

/-- Helper: every quality emitted anywhere by the readfq loop is at
least as long as its sequence, whatever the fuel, the buffered line
and the input. -/
theorem readfqAux_qual_ge (n : ℕ) :
    ∀ (buf : List Char) (lines : List (List Char)) (r : Read),
      r ∈ readfqAux n buf lines → ∀ q, r.qual = some q →
        r.seq.length ≤ q.length := by
  induction n with
  | zero =>
      intro buf lines r hr
      simp [readfqAux] at hr
  | succ n ih =>
      intro buf lines r hr q hq
      cases buf with
      | nil =>
          cases lines with
          | nil => simp [readfqAux_succ_nil_nil] at hr
          | cons l ls =>
              rw [readfqAux_succ_nil_cons] at hr
              by_cases hh : isHeaderLine l = true
              · rw [if_pos hh] at hr
                by_cases he : (l.dropLast).isEmpty = true
                · rw [if_pos he] at hr
                  simp at hr
                · rw [if_neg he] at hr
                  exact ih _ _ r hr q hq
              · rw [if_neg hh] at hr
                exact ih _ _ r hr q hq
      | cons c cs =>
          rcases hsv : readSeq lines with ⟨seqs, last, rest⟩
          by_cases hp : last.head? = some '+'
          · cases hqv : readQual ((seqs.join).length) [] rest with
            | none =>
                rw [readfqAux_fastq_truncated n c cs lines seqs last rest
                  hsv hp hqv] at hr
                simp only [List.mem_singleton] at hr
                rw [hr] at hq
                simp at hq
            | some pr =>
                rcases pr with ⟨qq, rest2⟩
                rw [readfqAux_fastq_emit n c cs lines seqs last rest qq rest2
                  hsv hp hqv] at hr
                rcases List.mem_cons.mp hr with h1 | h2
                · rw [h1] at hq ⊢
                  simp only [Option.some.injEq] at hq
                  subst hq
                  exact readQual_some_le _ _ _ _ _ hqv
                · exact ih _ _ r h2 q hq
          · rw [readfqAux_fasta n c cs lines seqs last rest hsv hp] at hr
            rcases List.mem_cons.mp hr with h1 | h2
            · rw [h1] at hq
              simp at hq
            · by_cases he : last.isEmpty = true
              · rw [if_pos he] at h2
                simp at h2
              · rw [if_neg he] at h2
                exact ih _ _ r h2 q hq

/-- C2 (amended): every record emitted by readfq with a present
quality has a quality at least as long as its sequence; the quality
loop stops once the accumulated length reaches the sequence length,
but an overshooting final quality line is kept whole, so the lengths
need not be equal. -/
theorem readfq_qual_length_ge (lines : List (List Char)) (r : Read)
    (hr : r ∈ readfq lines) (q : List Char) (hq : r.qual = some q) :
    r.seq.length ≤ q.length :=
  readfqAux_qual_ge _ _ _ r hr q hq

/-- C2 witness: a concrete exact fastq record. -/
theorem readfq_qual_length_ge_witness :
    Read.mk ['r'] ['A', 'C'] (some ['!', '!']) ∈
        readfq [['@', 'r', '\n'], ['A', 'C', '\n'], ['+', '\n'],
          ['!', '!', '\n']] ∧
    (Read.mk ['r'] ['A', 'C'] (some ['!', '!'])).seq.length ≤
        (['!', '!'] : List Char).length :=
  ⟨by decide,
   readfq_qual_length_ge
     [['@', 'r', '\n'], ['A', 'C', '\n'], ['+', '\n'], ['!', '!', '\n']]
     (Read.mk ['r'] ['A', 'C'] (some ['!', '!'])) (by decide)
     ['!', '!'] rfl⟩

/-- C2 counterexample: two three-character quality lines against a
four-character sequence overshoot, and readfq emits the six-character
accumulated quality untruncated, so the emitted quality length differs
from the sequence length. -/
theorem readfq_overshoot_counterexample :
    readfq [['@', 'r', '\n'], ['A', 'C', 'G', 'T', '\n'], ['+', '\n'],
        ['!', '!', '!', '\n'], ['!', '!', '!', '\n']] =
      [Read.mk ['r'] ['A', 'C', 'G', 'T']
          (some ['!', '!', '!', '!', '!', '!'])] ∧
    ¬ (Read.mk ['r'] ['A', 'C', 'G', 'T']
          (some ['!', '!', '!', '!', '!', '!'])).seq.length =
        (['!', '!', '!', '!', '!', '!'] : List Char).length :=
  ⟨by decide, by decide⟩

/-- C8: the k-mer run fails exactly when one of the two signature
cardinalities is zero (the division by zero in the scaling factors),
and in that case the failure happens before any read is processed: the
outcome does not depend on the read list at all. -/
theorem runClassification_domain_error (num_kmers_a num_kmers_b : ℕ)
    (reads : List Read) (count_kmers : List Char → ℕ × ℕ) :
    (runClassification num_kmers_a num_kmers_b reads count_kmers = none ↔
      num_kmers_a = 0 ∨ num_kmers_b = 0) ∧
    (num_kmers_a = 0 ∨ num_kmers_b = 0 → ∀ reads2 : List Read,
      runClassification num_kmers_a num_kmers_b reads count_kmers =
        runClassification num_kmers_a num_kmers_b reads2 count_kmers) := by
  by_cases ha : num_kmers_a = 0
  · subst ha
    have hc : calculate_scaling_factors 0 num_kmers_b = none := by
      simp [calculate_scaling_factors]
    constructor
    · simp [runClassification, hc]
    · intro _ reads2
      simp [runClassification, hc]
  · by_cases hb : num_kmers_b = 0
    · subst hb
      have hc : calculate_scaling_factors num_kmers_a 0 = none := by
        simp [calculate_scaling_factors, ha]
      constructor
      · simp [runClassification, hc]
      · intro _ reads2
        simp [runClassification, hc]
    · have hc : calculate_scaling_factors num_kmers_a num_kmers_b =
          some (1 * ((max num_kmers_a num_kmers_b : ℕ) : ℚ) / (num_kmers_a : ℚ),
                1 * ((max num_kmers_a num_kmers_b : ℕ) : ℚ) / (num_kmers_b : ℚ)) := by
        simp [calculate_scaling_factors, ha, hb]
      constructor
      · simp [runClassification, hc, ha, hb]
      · intro h
        exact absurd h (by simp [ha, hb])

/-- C8 witness: with a zero haplotype A cardinality the run fails
identically on a nonempty and on an empty read list. -/
theorem runClassification_domain_error_witness :
    ((0 : ℕ) = 0 ∨ (6 : ℕ) = 0) ∧
    runClassification 0 6 [Read.mk ['r'] ['A'] none] (fun _ => (1, 1)) =
      runClassification 0 6 [] (fun _ => (1, 1)) :=
  ⟨Or.inl rfl,
   (runClassification_domain_error 0 6 [Read.mk ['r'] ['A'] none]
     (fun _ => (1, 1))).2 (Or.inl rfl) []⟩

/-- Helper: splitting consumes a newline-free chunk followed by a
newline as one raw line. -/
theorem splitLinesAux_chunk (a b : List Char) :
    ∀ acc, ('\n') ∉ a →
      splitLinesAux acc (a ++ '\n' :: b) =
        ((acc.reverse ++ a) ++ ['\n']) :: splitLinesAux [] b := by
  induction a with
  | nil =>
      intro acc h
      simp [splitLinesAux]
  | cons c cs ih =>
      intro acc h
      have hc : ¬ c = '\n' := by
        intro hh
        subst hh
        exact h (List.mem_cons_self _ _)
      simp only [List.cons_append, splitLinesAux, List.append_eq]
      rw [if_neg hc]
      rw [ih (c :: acc) (fun hx => h (List.mem_cons_of_mem c hx))]
      simp

/-- Helper: splitLines on a chunked stream. -/
theorem splitLines_chunk (a b : List Char) (h : ('\n') ∉ a) :
    splitLines (a ++ '\n' :: b) = (a ++ ['\n']) :: splitLines b := by
  rw [splitLines, splitLinesAux_chunk a b [] h]
  rfl

/-- Helper: the empty stream has no lines. -/
theorem splitLines_nil : splitLines [] = [] := rfl

/-- Helper: a name free of spaces is its own space-delimited token. -/
theorem takeWhile_ne_space (name : List Char) (h : (' ') ∉ name) :
    name.takeWhile (fun c => c ≠ ' ') = name := by
  rw [List.takeWhile_eq_self_iff]
  intro x hx
  simp only [ne_eq, decide_eq_true_eq]
  intro hh
  subst hh
  exact h hx

/-- C4 (amended): a Read whose name has no space and no newline, whose
sequence has no newline and does not begin with one of the three
marker characters, and whose quality, when present, is nonempty, has
no newline and is at least as long as the sequence, survives the
print-then-parse round trip: readfq on the printed form yields exactly
the original record.  As stated over all Records the claim fails: a
present-but-empty quality is printed in fasta form and re-parses with
quality absent. -/
theorem readfq_print_roundtrip (r : Read)
    (hn1 : ('\n') ∉ r.name) (hn2 : (' ') ∉ r.name)
    (hs1 : ('\n') ∉ r.seq)
    (hs2 : ¬ r.seq.head? = some '@') (hs3 : ¬ r.seq.head? = some '+')
    (hs4 : ¬ r.seq.head? = some '>')
    (hq : ∀ q, r.qual = some q →
      q ≠ [] ∧ ('\n') ∉ q ∧ r.seq.length ≤ q.length) :
    readfq (splitLines (printRead r)) = [r] := by
  obtain ⟨name, sq, qual⟩ := r
  have hsb : isSeqBreak (sq ++ ['\n']) = false := by
    cases sq with
    | nil => rfl
    | cons c cs =>
        have hc2 : ¬ c = '@' := by simpa using hs2
        have hc3 : ¬ c = '+' := by simpa using hs3
        have hc4 : ¬ c = '>' := by simpa using hs4
        simp [isSeqBreak, hc2, hc3, hc4]
  have hn1' : ('\n') ∉ name := hn1
  have hn2' : (' ') ∉ name := hn2
  have hs1' : ('\n') ∉ sq := hs1
  cases qual with
  | none =>
      have hnl1 : ('\n') ∉ ('>' :: name) := by
        intro hm
        rcases List.mem_cons.mp hm with hx | hx
        · exact absurd hx (by decide)
        · exact hn1' hx
      have hform : printRead (Read.mk name sq none) =
          ('>' :: name) ++ '\n' :: (sq ++ ['\n']) := by
        simp [printRead, strRead]
      rw [hform, splitLines_chunk _ _ hnl1, splitLines_chunk sq [] hs1',
        splitLines_nil]
      rw [readfq]
      simp only [List.length_cons, List.length_nil]
      rw [readfqAux_succ_nil_cons]
      rw [if_pos (show isHeaderLine (('>' :: name) ++ ['\n']) = true by
        simp [isHeaderLine])]
      rw [List.dropLast_concat]
      rw [if_neg (show ¬ (('>' : Char) :: name).isEmpty = true by simp)]
      have hrs : readSeq [sq ++ ['\n']] = ([sq], [], []) := by
        simp [readSeq, hsb, List.dropLast_concat]
      rw [readfqAux_fasta _ '>' name _ _ _ _ hrs (by simp)]
      simp [parseName, takeWhile_ne_space name hn2']
      intro x hx hxx
      exact hn2' (hxx ▸ hx)
  | some q =>
      obtain ⟨hq1, hq2, hq3⟩ := hq q rfl
      have hq3' : sq.length ≤ q.length := hq3
      have hqe : q.isEmpty = false := by
        cases q with
        | nil => exact absurd rfl hq1
        | cons a as => rfl
      have hnl2 : ('\n') ∉ ('@' :: name) := by
        intro hm
        rcases List.mem_cons.mp hm with hx | hx
        · exact absurd hx (by decide)
        · exact hn1' hx
      have hform : printRead (Read.mk name sq (some q)) =
          ('@' :: name) ++ '\n' :: (sq ++ '\n' ::
            ((['+'] : List Char) ++ '\n' :: (q ++ ['\n']))) := by
        simp [printRead, strRead, hqe]
      rw [hform, splitLines_chunk _ _ hnl2, splitLines_chunk sq _ hs1',
        splitLines_chunk ['+'] _ (by decide), splitLines_chunk q [] hq2,
        splitLines_nil]
      rw [readfq]
      simp only [List.length_cons, List.length_nil]
      rw [readfqAux_succ_nil_cons]
      rw [if_pos (show isHeaderLine (('@' :: name) ++ ['\n']) = true by
        simp [isHeaderLine])]
      rw [List.dropLast_concat]
      rw [if_neg (show ¬ (('@' : Char) :: name).isEmpty = true by simp)]
      have hrs : readSeq [sq ++ ['\n'], (['+'] : List Char) ++ ['\n'],
          q ++ ['\n']] = ([sq], ['+'], [q ++ ['\n']]) := by
        have hpb : isSeqBreak ['+', '\n'] = true := by decide
        simp [readSeq, hsb, hpb, List.dropLast_concat]
      have hqr : readQual ((([sq] : List (List Char)).join).length) []
          [q ++ ['\n']] = some (q, []) := by
        simp [readQual, List.dropLast_concat, hq3']
      rw [readfqAux_fastq_emit _ '@' name _ _ _ _ _ _ hrs (by decide) hqr]
      rw [readfqAux_succ_nil_nil]
      simp [parseName, takeWhile_ne_space name hn2']
      intro x hx hxx
      exact hn2' (hxx ▸ hx)

/-- C4 witness: a concrete well-formed fastq record survives the round
trip. -/
theorem readfq_print_roundtrip_witness :
    readfq (splitLines (printRead (Read.mk ['r'] ['A', 'C']
        (some ['!', '#'])))) =
      [Read.mk ['r'] ['A', 'C'] (some ['!', '#'])] :=
  readfq_print_roundtrip _ (by decide) (by decide) (by decide) (by decide)
    (by decide) (by decide)
    (fun q hq => by
      simp only [Option.some.injEq] at hq
      subst hq
      exact ⟨by decide, by decide, by decide⟩)

/-- C4 counterexample: the Record with empty sequence and
present-but-empty quality satisfies the data-model length invariant but
does not survive the round trip: it is printed in fasta form and
re-parses with quality absent. -/
theorem roundtrip_counterexample :
    readfq (splitLines (printRead (Read.mk ['r'] [] (some [])))) =
      [Read.mk ['r'] [] none] ∧
    ¬ readfq (splitLines (printRead (Read.mk ['r'] [] (some [])))) =
      [Read.mk ['r'] [] (some [])] :=
  ⟨by decide, by decide⟩

/-- C10: formatting a Read whose quality is present but empty emits
exactly the fasta form, both through str and through print, so a
present-but-empty quality and an absent quality are indistinguishable
in the formatted output. -/
theorem strRead_empty_quality_fasta (name sq : List Char) :
    strRead (Read.mk name sq (some [])) = strRead (Read.mk name sq none) ∧
    printRead (Read.mk name sq (some [])) = printRead (Read.mk name sq none) ∧
    strRead (Read.mk name sq (some [])) = '>' :: (name ++ ('\n' :: sq)) := by
  refine ⟨rfl, rfl, rfl⟩

end TrioBinning
